import Mathlib

/-!
# Verification of the per-agent learning store and pattern miner

Shallow embedding of `agent_memory.py` (class `AgentMemory`) and
`pattern_miner.py` (`mine_agent`) from the repository.

Modelling conventions, chosen once and used consistently:

* The SQLite tables `decisions`, `patterns`, `knowledge` are lists of
  records, in rowid (insertion) order.
* Python `float` is modelled as `ℚ` (exact rational arithmetic; the usual
  abstraction of the numeric claims away from IEEE rounding noise).
* Timestamps: the code stores `datetime.now(ET).isoformat()` strings and
  compares them with SQL `<` / `ORDER BY`.  For a fixed zone and format,
  ISO-8601 strings compare lexicographically exactly as chronologically,
  so a timestamp is modelled as a `Nat` (seconds), ordered numerically.
  `timedelta(hours=h)` becomes `3600 * h`, and the hour-of-day that
  `mine_agent` parses out of `ts.split("T")[1]` becomes `t % 86400 / 3600`
  (the `except` branch of that parse is dead for well-formed isoformat
  strings).
* `uuid4` row ids are modelled by a fresh-name supply: a `nextId` counter
  in the store state; `f"dec_{uuid4().hex[:10]}"` becomes `"dec_" ++ repr n`.
* Python `s[:n]` on strings is `truncate n s` (first `n` code points).
* `tags` are stored as a JSON text column; `json.dumps`/`json.loads`
  round-trip is the identity on lists of strings, so the column is
  modelled directly as `List String`.
* SQL `LIKE` (no ESCAPE clause) is implemented faithfully: `%` matches any
  run, `_` any single character, other characters compare
  ASCII-case-insensitively (SQLite's default `LIKE` is case-insensitive
  for ASCII); `LOWER` is SQLite's ASCII-only lowering, which agrees with
  `Char.toLower`.
* `sqlite3` raising (e.g. a parameter-count mismatch) is an `Except.error`.
-/

namespace SharedMemory

/-- Python `s[:n]`: the first `n` characters of `s`. -/
def truncate (n : Nat) (s : String) : String := String.mk (s.data.take n)

/-- ASCII lower-casing, as both SQLite `LOWER` and (on ASCII) Python `str.lower`. -/
def lowerStr (s : String) : String := String.mk (s.data.map Char.toLower)

/-- A single quote character, used in the miner's f-string descriptions. -/
def sq : String := "\x27"

/-- Python `min` on two floats (modelled as rationals). -/
def ratMin (a b : ℚ) : ℚ := if a ≤ b then a else b

/-- Python `max` on two floats (modelled as rationals). -/
def ratMax (a b : ℚ) : ℚ := if b ≤ a then a else b

/-- One row of the `decisions` table. -/
structure Decision where
  id : String
  timestamp : Nat
  context : String
  decision : String
  reasoning : String
  confidence : ℚ
  outcome : String
  outcome_score : ℚ
  resolved : Bool
  tags : List String
deriving DecidableEq, Repr

/-- One row of the `patterns` table. -/
structure Pattern where
  id : String
  pattern_type : String
  description : String
  evidence_count : Int
  confidence : ℚ
  active : Bool
  created_at : Nat
  updated_at : Nat
  tags : List String
deriving DecidableEq, Repr

/-- One row of the `knowledge` table.  `expires_at = none` models the
empty-string `expires_at` of a row that never expires. -/
structure Knowledge where
  id : String
  category : String
  key : String
  value : String
  source : String
  ttl_hours : Int
  created_at : Nat
  expires_at : Option Nat
deriving DecidableEq, Repr

/-- The whole per-agent SQLite database, plus the fresh-id supply that
models `uuid4`. -/
structure MemState where
  decisions : List Decision
  patterns : List Pattern
  knowledge : List Knowledge
  nextId : Nat
deriving DecidableEq, Repr

def emptyMem : MemState := ⟨[], [], [], 0⟩

instance {ε α : Type} [DecidableEq ε] [DecidableEq α] : DecidableEq (Except ε α) := fun a b =>
  match a, b with
  | .error e, .error f =>
    if h : e = f then .isTrue (by rw [h]) else .isFalse (by intro hc; cases hc; exact h rfl)
  | .ok x, .ok y =>
    if h : x = y then .isTrue (by rw [h]) else .isFalse (by intro hc; cases hc; exact h rfl)
  | .error _, .ok _ => .isFalse (by intro hc; cases hc)
  | .ok _, .error _ => .isFalse (by intro hc; cases hc)

def mkDecId (n : Nat) : String := "dec_" ++ Nat.repr n

def mkPatId (n : Nat) : String := "pat_" ++ Nat.repr n

def mkKnId (n : Nat) : String := "kn_" ++ Nat.repr n

/-- `ORDER BY timestamp DESC` on decisions. -/
def byNewest (a b : Decision) : Prop := b.timestamp ≤ a.timestamp

instance : DecidableRel byNewest := fun a b => Nat.decLe b.timestamp a.timestamp

instance : IsTotal Decision byNewest := ⟨fun a b => Nat.le_total b.timestamp a.timestamp⟩

instance : IsTrans Decision byNewest :=
  ⟨fun _ _ _ h1 h2 => Nat.le_trans h2 h1⟩

def sortByNewest (l : List Decision) : List Decision := List.insertionSort byNewest l

/-- `ORDER BY confidence DESC, evidence_count DESC` on patterns. -/
def byConfEv (a b : Pattern) : Prop :=
  b.confidence < a.confidence ∨ (a.confidence = b.confidence ∧ b.evidence_count ≤ a.evidence_count)

instance : DecidableRel byConfEv := fun _ _ => instDecidableOr

def sortByConfEv (l : List Pattern) : List Pattern := List.insertionSort byConfEv l

/-- `ORDER BY created_at DESC` on knowledge. -/
def byCreated (a b : Knowledge) : Prop := b.created_at ≤ a.created_at

instance : DecidableRel byCreated := fun a b => Nat.decLe b.created_at a.created_at

def sortByCreated (l : List Knowledge) : List Knowledge := List.insertionSort byCreated l

/-! ## Decision-store operations (`agent_memory.py`) -/

/-- `AgentMemory.record_decision`: insert a new unresolved decision, with
text fields truncated to 2000 characters and confidence clamped to [0,1]. -/
def record_decision (s : MemState) (now : Nat) (context decisionText reasoning : String)
    (confidence : ℚ) (tags : List String) : String × MemState :=
  let did := mkDecId s.nextId
  (did,
    { s with
      nextId := s.nextId + 1
      decisions := s.decisions ++
        [{ id := did, timestamp := now, context := truncate 2000 context,
           decision := truncate 2000 decisionText, reasoning := truncate 2000 reasoning,
           confidence := ratMax 0 (ratMin 1 confidence), outcome := "", outcome_score := 0,
           resolved := false, tags := tags }] })

/-- `AgentMemory.record_outcome`: `UPDATE decisions SET outcome, outcome_score,
resolved = 1 WHERE id = ?`; returns whether any row was updated. -/
def record_outcome (s : MemState) (decision_id outcome : String) (score : ℚ) :
    Bool × MemState :=
  (s.decisions.any (fun d => d.id == decision_id),
    { s with
      decisions := s.decisions.map (fun d =>
        if d.id == decision_id then
          { d with outcome := truncate 2000 outcome,
                   outcome_score := ratMax (-1) (ratMin 1 score), resolved := true }
        else d) })

/-- `AgentMemory.get_recent_decisions`: newest first, optionally only resolved. -/
def get_recent_decisions (s : MemState) (limit : Nat) (resolved_only : Bool) :
    List Decision :=
  (sortByNewest (if resolved_only then s.decisions.filter (fun d => d.resolved) else
    s.decisions)).take limit

/-! ### SQL LIKE

`sqlLike pat str` is SQLite's default `str LIKE pat`: `%` matches any
(possibly empty) run, `_` any single character, and any other pattern
character matches ASCII-case-insensitively. -/

def eqCI (a b : Char) : Bool := a.toLower == b.toLower

/-- `suffixAny f s` is true when `f` accepts some suffix of `s`. -/
def suffixAny (f : List Char → Bool) : List Char → Bool
  | [] => f []
  | c :: t => f (c :: t) || suffixAny f t

def likeM : List Char → List Char → Bool
  | [], s => s.isEmpty
  | c :: ps, s =>
    if c = '%' then suffixAny (likeM ps) s
    else if c = '_' then
      match s with
      | [] => false
      | _ :: t => likeM ps t
    else
      match s with
      | [] => false
      | d :: t => eqCI c d && likeM ps t

def sqlLike (pat str : String) : Bool := likeM pat.data str.data

/-- `AgentMemory.search_decisions`:
`context LIKE '%q%' OR decision LIKE '%q%'`, newest first, at most `limit`. -/
def search_decisions (s : MemState) (query : String) (limit : Nat) : List Decision :=
  let pat := "%" ++ query ++ "%"
  (sortByNewest (s.decisions.filter (fun d =>
    sqlLike pat d.context || sqlLike pat d.decision))).take limit

/-- Emit the non-whitespace run accumulated (in reverse) by `wsSplitAux`. -/
def wsFlush (cur : List Char) : List String :=
  match cur with
  | [] => []
  | _ :: _ => [String.mk cur.reverse]

def wsSplitAux (cur : List Char) : List Char → List String
  | [] => wsFlush cur
  | c :: rest =>
    if c.isWhitespace then wsFlush cur ++ wsSplitAux [] rest
    else wsSplitAux (c :: cur) rest

/-- Python `situation.split()`: split on whitespace runs, no empty pieces. -/
def splitWs (s : String) : List String := wsSplitAux [] s.data

/-- `AgentMemory.get_relevant_context`.  The code builds one
`LOWER(context) LIKE ?` clause per qualifying keyword (twice: once in the
`relevance` scalar subquery and once in `WHERE`) but binds only
`words[:10]` (again twice) plus the limit; when the clause count and the
binding count disagree `sqlite3` raises, modelled as `Except.error`. -/
def get_relevant_context (s : MemState) (situation : String) (limit : Nat) :
    Except String (List Decision) :=
  let words := ((splitWs situation).filter (fun w => 3 ≤ w.length)).map lowerStr
  if words.isEmpty then .ok []
  else
    let placeholders := 2 * words.length + 1
    let bound := 2 * (words.take 10).length + 1
    if placeholders ≠ bound then .error "Incorrect number of bindings supplied"
    else .ok ((sortByNewest (s.decisions.filter (fun d =>
      words.any (fun w => sqlLike ("%" ++ w ++ "%") (lowerStr d.context))))).take limit)

/-! ## Pattern-store operations -/

/-- The reinforcement lookup of `add_pattern`:
`WHERE pattern_type = ? AND description = ? AND active = 1`. -/
def patMatch (pt d : String) (p : Pattern) : Bool :=
  p.pattern_type == pt && p.description == d && p.active

/-- `AgentMemory.add_pattern`: reinforce the first matching active row
(summing evidence, confidence `min 0.99 (old + 0.05)`, bumping
`updated_at`), or insert a fresh active row with `pattern_type[:100]`,
`description[:1000]` and clamped confidence. -/
def add_pattern (s : MemState) (now : Nat) (pattern_type description : String)
    (evidence_count : Int) (confidence : ℚ) (tags : List String) : String × MemState :=
  match s.patterns.find? (patMatch pattern_type description) with
  | some ex =>
    (ex.id,
      { s with
        patterns := s.patterns.map (fun p =>
          if p.id == ex.id then
            { p with evidence_count := ex.evidence_count + evidence_count,
                     confidence := ratMin 0.99 (ex.confidence + 0.05),
                     updated_at := now }
          else p) })
  | none =>
    let pid := mkPatId s.nextId
    (pid,
      { s with
        nextId := s.nextId + 1
        patterns := s.patterns ++
          [{ id := pid, pattern_type := truncate 100 pattern_type,
             description := truncate 1000 description,
             evidence_count := evidence_count,
             confidence := ratMax 0 (ratMin 1 confidence), active := true,
             created_at := now, updated_at := now, tags := tags }] })

/-- `AgentMemory.get_active_patterns` (the `WHERE confidence >= ?` clause is
only added when `min_confidence > 0`). -/
def get_active_patterns (s : MemState) (pattern_type : Option String)
    (min_confidence : ℚ) : List Pattern :=
  sortByConfEv (s.patterns.filter (fun p =>
    p.active &&
    (match pattern_type with
     | some t => p.pattern_type == t
     | none => true) &&
    (if 0 < min_confidence then decide (min_confidence ≤ p.confidence) else true)))

/-- `AgentMemory.deactivate_pattern`: `UPDATE patterns SET active = 0 WHERE id = ?`. -/
def deactivate_pattern (s : MemState) (pattern_id : String) : Bool × MemState :=
  (s.patterns.any (fun p => p.id == pattern_id),
    { s with
      patterns := s.patterns.map (fun p =>
        if p.id == pattern_id then { p with active := false } else p) })

/-! ## Knowledge-store operations -/

def knMatch (category key : String) (k : Knowledge) : Bool :=
  k.category == category && k.key == key

/-- `AgentMemory.set_knowledge`: upsert by `(category, key)`.  The insert
path truncates `category[:100]`, `key[:200]`, `value[:5000]`,
`source[:200]`; the update path rewrites value/source/ttl/created/expires
and leaves `category`/`key` as stored. -/
def set_knowledge (s : MemState) (now : Nat) (category key value source : String)
    (ttl_hours : Int) : String × MemState :=
  let expires : Option Nat :=
    if 0 < ttl_hours then some (now + 3600 * ttl_hours.toNat) else none
  match s.knowledge.find? (knMatch category key) with
  | some ex =>
    (ex.id,
      { s with
        knowledge := s.knowledge.map (fun k =>
          if k.id == ex.id then
            { k with value := truncate 5000 value, source := truncate 200 source,
                     ttl_hours := ttl_hours, created_at := now, expires_at := expires }
          else k) })
  | none =>
    let kid := mkKnId s.nextId
    (kid,
      { s with
        nextId := s.nextId + 1
        knowledge := s.knowledge ++
          [{ id := kid, category := truncate 100 category, key := truncate 200 key,
             value := truncate 5000 value, source := truncate 200 source,
             ttl_hours := ttl_hours, created_at := now, expires_at := expires }] })

/-- `expires_at != '' AND expires_at < now`. -/
def expiredAt (now : Nat) (k : Knowledge) : Bool :=
  match k.expires_at with
  | none => false
  | some e => decide (e < now)

/-- `AgentMemory.get_knowledge`: first physically `DELETE` every expired
row, then return the (optionally filtered) rows newest-`created_at` first.
Callers in the repository pass `None` for an absent filter (Python treats
`""` as absent too; that calling pattern does not occur). -/
def get_knowledge (s : MemState) (now : Nat) (category key : Option String) :
    List Knowledge × MemState :=
  let kept := s.knowledge.filter (fun k => !expiredAt now k)
  ((sortByCreated (kept.filter (fun k =>
      (match category with
       | some c => k.category == c
       | none => true) &&
      (match key with
       | some c => k.key == c
       | none => true)))),
    { s with knowledge := kept })

/-! ## Pattern miner (`pattern_miner.py`)

`MIN_EVIDENCE = 3`, `MIN_CONFIDENCE = 0.55`. -/

def isAz (c : Char) : Bool := 'a' ≤ c && c ≤ 'z'

def isWordChar (c : Char) : Bool := isAz c || ('0' ≤ c && c ≤ '9') || c == '_'

/-- Emit the token accumulated (in reverse) by the scanner, provided it has
the two characters `[a-z][a-z0-9_]+` requires. -/
def kwFlush (cur : List Char) : List String :=
  if 2 ≤ cur.length then [String.mk cur.reverse] else []

/-- Left-to-right scanner for `re.findall(r'[a-z][a-z0-9_]+', text)`:
leftmost matches, each extended greedily. -/
def kwScanAux (cur : List Char) : List Char → List String
  | [] => kwFlush cur
  | c :: rest =>
    match cur with
    | [] => if isAz c then kwScanAux [c] rest else kwScanAux [] rest
    | _ :: _ =>
      if isWordChar c then kwScanAux (c :: cur) rest
      else kwFlush cur ++ kwScanAux [] rest

/-- The stop-word set of `_extract_keywords`. -/
def noise : List String :=
  ["the", "and", "for", "with", "from", "this", "that", "was", "are",
   "has", "had", "but", "not", "you", "all", "can", "her", "his",
   "one", "our", "out", "day", "get", "got", "let", "may", "say",
   "she", "too", "use", "way", "who", "how", "its", "did", "now"]

/-- `pattern_miner._extract_keywords`. -/
def extract_keywords (text : String) : List String :=
  (kwScanAux [] (lowerStr text).data).filter (fun w => !noise.contains w && 3 ≤ w.length)

/-! ### Strategy 1: tag performance -/

structure TagStat where
  tag : String
  wins : Nat
  losses : Nat
  total : Nat
deriving DecidableEq, Repr

/-- One `tag_outcomes[tag]` update for a decision with score `sc`. -/
def bumpTag (sc : ℚ) (acc : List TagStat) (tg : String) : List TagStat :=
  if acc.any (fun e => e.tag == tg) then
    acc.map (fun e =>
      if e.tag == tg then
        { e with total := e.total + 1,
                 wins := if 0 < sc then e.wins + 1 else e.wins,
                 losses := if sc < 0 then e.losses + 1 else e.losses }
      else e)
  else
    acc ++ [{ tag := tg, total := 1, wins := if 0 < sc then 1 else 0,
              losses := if sc < 0 then 1 else 0 }]

/-- The `tag_outcomes` table, keyed by tag in first-seen (dict insertion) order. -/
def tagStats (resolved : List Decision) : List TagStat :=
  resolved.foldl (fun acc d => d.tags.foldl (bumpTag d.outcome_score) acc) []

/-- `counts["wins"] / max(1, counts["wins"] + counts["losses"])`. -/
def tagWr (e : TagStat) : ℚ := (e.wins : ℚ) / ((Nat.max 1 (e.wins + e.losses)) : ℚ)

/-- Python's `format(x, '.0%')`: percent with zero decimals, rounding
half-to-even. -/
def roundHalfEven (q : ℚ) : ℤ :=
  let f := Rat.floor q
  let r := q - f
  if r < 1/2 then f
  else if 1/2 < r then f + 1
  else if f % 2 = 0 then f else f + 1

def fmtPct (q : ℚ) : String := (roundHalfEven (q * 100)).repr ++ "%"

def tagDesc (tg : String) (wins losses total : Nat) (wr : ℚ) : String :=
  "Tag " ++ sq ++ tg ++ sq ++ ": " ++ (if 0.5 ≤ wr then "wins" else "loses") ++ " " ++
    fmtPct wr ++ " of the time (" ++ Nat.repr wins ++ "W/" ++ Nat.repr losses ++
    "L over " ++ Nat.repr total ++ " decisions)"

structure Emission where
  ptype : String
  desc : String
  ev : Int
  conf : ℚ
deriving DecidableEq, Repr

def strat1emit (e : TagStat) : Option Emission :=
  if e.total < 3 then none
  else
    let wr := tagWr e
    if 0.55 ≤ wr ∨ wr ≤ 1 - 0.55 then
      some ⟨"tag_performance", tagDesc e.tag e.wins e.losses e.total wr,
            (e.total : Int), if 0.5 ≤ wr then wr else 1 - wr⟩
    else none

/-! ### Strategy 2: keyword signal -/

/-- `Counter` update by one occurrence of `w` (insertion-ordered dict). -/
def bumpCount (acc : List (String × Nat)) (w : String) : List (String × Nat) :=
  if acc.any (fun e => e.1 == w) then
    acc.map (fun e => if e.1 == w then (e.1, e.2 + 1) else e)
  else acc ++ [(w, 1)]

def countOf (acc : List (String × Nat)) (w : String) : Nat :=
  ((acc.find? (fun e => e.1 == w)).map (fun e => e.2)).getD 0

def winWords (resolved : List Decision) : List (String × Nat) :=
  resolved.foldl (fun acc d =>
    if 0 < d.outcome_score then (extract_keywords d.context).foldl bumpCount acc else acc) []

def lossWords (resolved : List Decision) : List (String × Nat) :=
  resolved.foldl (fun acc d =>
    if d.outcome_score < 0 then (extract_keywords d.context).foldl bumpCount acc else acc) []

def dedupAux (seen : List String) : List String → List String
  | [] => []
  | w :: ws => if seen.contains w then dedupAux seen ws else w :: dedupAux (w :: seen) ws

/-- `set(win_words) | set(loss_words)`.  Python set iteration order is
unspecified; it is modelled as first-occurrence order, which only affects
the relative order of emitted `keyword_signal` rows (and the fresh ids they
draw), never any per-row field. -/
def allWords (resolved : List Decision) : List String :=
  dedupAux [] ((winWords resolved).map (fun e => e.1) ++ (lossWords resolved).map (fun e => e.1))

structure WordStat where
  word : String
  w : Nat
  l : Nat
deriving DecidableEq, Repr

def wordStats (resolved : List Decision) : List WordStat :=
  (allWords resolved).map (fun wd =>
    ⟨wd, countOf (winWords resolved) wd, countOf (lossWords resolved) wd⟩)

def strat2emit (e : WordStat) : Option Emission :=
  let total := e.w + e.l
  if total < 3 then none
  else
    let wr := (e.w : ℚ) / (total : ℚ)
    if 0.65 ≤ wr then
      some ⟨"keyword_signal",
            "Keyword " ++ sq ++ e.word ++ sq ++ " in context: " ++ fmtPct wr ++
              " win rate (" ++ Nat.repr e.w ++ "W/" ++ Nat.repr e.l ++ "L)",
            (total : Int), wr⟩
    else if wr ≤ 0.35 then
      some ⟨"keyword_signal",
            "Keyword " ++ sq ++ e.word ++ sq ++ " in context: " ++ fmtPct (1 - wr) ++
              " loss rate (" ++ Nat.repr e.l ++ "L/" ++ Nat.repr e.w ++ "W)",
            (total : Int), 1 - wr⟩
    else none

/-! ### Strategy 3: confidence calibration -/

def strat3emits (resolved : List Decision) : List (Option Emission) :=
  let high := resolved.filter (fun d => 0.7 ≤ d.confidence)
  let low := resolved.filter (fun d => d.confidence < 0.4)
  [if 3 ≤ high.length then
     let hw := ((high.filter (fun d => 0 < d.outcome_score)).length : ℚ) / (high.length : ℚ)
     some ⟨"calibration",
           "High-confidence decisions (>=0.7): actual win rate " ++ fmtPct hw ++
             " over " ++ Nat.repr high.length ++ " decisions",
           (high.length : Int), hw⟩
   else none,
   if 3 ≤ low.length then
     let lw := ((low.filter (fun d => 0 < d.outcome_score)).length : ℚ) / (low.length : ℚ)
     some ⟨"calibration",
           "Low-confidence decisions (<0.4): actual win rate " ++ fmtPct lw ++
             " over " ++ Nat.repr low.length ++ " decisions",
           (low.length : Int), ratMax lw (1 - lw)⟩
   else none]

/-! ### Strategy 4: temporal -/

/-- `int(ts.split("T")[1].split(":")[0])` for an isoformat local timestamp:
the hour of day. -/
def hourOf (t : Nat) : Nat := t % 86400 / 3600

structure HourStat where
  hour : Nat
  wins : Nat
  losses : Nat
deriving DecidableEq, Repr

def bumpHour (isWin : Bool) (acc : List HourStat) (h : Nat) : List HourStat :=
  if acc.any (fun e => e.hour == h) then
    acc.map (fun e =>
      if e.hour == h then
        if isWin then { e with wins := e.wins + 1 } else { e with losses := e.losses + 1 }
      else e)
  else acc ++ [if isWin then ⟨h, 1, 0⟩ else ⟨h, 0, 1⟩]

/-- `hour_outcomes`: an hour gets an entry only when some win or loss
touches it (score-0 decisions fall through both branches). -/
def hourStats (resolved : List Decision) : List HourStat :=
  resolved.foldl (fun acc d =>
    if 0 < d.outcome_score then bumpHour true acc (hourOf d.timestamp)
    else if d.outcome_score < 0 then bumpHour false acc (hourOf d.timestamp)
    else acc) []

def periodOf (h : Nat) : String :=
  if 6 ≤ h ∧ h < 12 then "morning"
  else if 12 ≤ h ∧ h < 18 then "afternoon"
  else if 18 ≤ h ∧ h < 22 then "evening"
  else "night"

def strat4emit (e : HourStat) : Option Emission :=
  let total := e.wins + e.losses
  if total < 3 then none
  else
    let wr := (e.wins : ℚ) / (total : ℚ)
    if 0.7 ≤ wr ∨ wr ≤ 0.3 then
      some ⟨"temporal",
            "Hour " ++ Nat.repr e.hour ++ ":00 (" ++ periodOf e.hour ++ "): " ++
              (if 0.5 ≤ wr then "favorable" else "unfavorable") ++ " — " ++ fmtPct wr ++
              " WR (" ++ Nat.repr e.wins ++ "W/" ++ Nat.repr e.losses ++ "L)",
            (total : Int), if 0.5 ≤ wr then wr else 1 - wr⟩
    else none

/-! ### `mine_agent` -/

def resolvedCount (s : MemState) : Nat := (s.decisions.filter (fun d => d.resolved)).length

/-- `mem.get_recent_decisions(limit=500, resolved_only=True)`. -/
def resolvedTop (s : MemState) : List Decision := get_recent_decisions s 500 true

/-- One `add_pattern` call of the miner (`tags` defaulted), also counting
the description appended to `new_patterns`. -/
def maybeAdd (now : Nat) (st : MemState × Nat) (em : Option Emission) : MemState × Nat :=
  match em with
  | none => st
  | some e => ((add_pattern st.1 now e.ptype e.desc e.ev e.conf []).2, st.2 + 1)

/-- The `add_pattern` calls the four strategies make, in program order.
Each strategy's statistics depend only on the `resolved` snapshot, never on
the pattern table, so the sequence of calls is exactly this list. -/
def mineEmissions (resolved : List Decision) : List (Option Emission) :=
  (tagStats resolved).map strat1emit ++ (wordStats resolved).map strat2emit ++
    strat3emits resolved ++ (hourStats resolved).map strat4emit

/-- The state after the four extraction strategies (and the
`new_patterns` count). -/
def mineStrategies (s : MemState) (now : Nat) : MemState × Nat :=
  (mineEmissions (resolvedTop s)).foldl (maybeAdd now) (s, 0)

/-- `p["evidence_count"] <= 1 and p["confidence"] < 0.5`. -/
def weakB (p : Pattern) : Bool :=
  decide (p.evidence_count ≤ 1) && decide (p.confidence < 0.5)

/-- The pruning loop: fetch the active patterns once, then deactivate every
weak one. -/
def pruneWeak (s : MemState) : Nat × MemState :=
  (get_active_patterns s none 0).foldl
    (fun acc p => if weakB p then (acc.1 + 1, (deactivate_pattern acc.2 p.id).2) else acc)
    (0, s)

/-- The fields of `mine_agent`'s result dict that the claims mention. -/
structure MineResult where
  skipped : Bool
  reason : String
  patterns_extracted : Nat
  patterns_pruned : Nat
deriving DecidableEq, Repr

/-- `pattern_miner.mine_agent` on one agent's store. -/
def mine_agent (s : MemState) (now : Nat) : MineResult × MemState :=
  if resolvedCount s < 3 then
    ({ skipped := true, reason := "insufficient_data",
       patterns_extracted := 0, patterns_pruned := 0 }, s)
  else
    let st := mineStrategies s now
    let pr := pruneWeak st.1
    ({ skipped := false, reason := "", patterns_extracted := st.2,
       patterns_pruned := pr.1 }, pr.2)

/-! ## Spec-side definitions (for refinement comparison only) -/

/-- `listPrefixB q l`: `q` is an exact prefix of `l`. -/
def listPrefixB : List Char → List Char → Bool
  | [], _ => true
  | _ :: _, [] => false
  | a :: as, b :: bs => a == b && listPrefixB as bs

/-- `listInfixB q l`: `q` occurs contiguously somewhere in `l`. -/
def listInfixB (q : List Char) : List Char → Bool
  | [] => listPrefixB q []
  | c :: t => listPrefixB q (c :: t) || listInfixB q t

/-- Raw (case-sensitive) substring containment on strings. -/
def strContains (q str : String) : Bool := listInfixB q.data str.data

/-- Written from the words of claim C6 (not from the code): the decisions
whose context or decision text contains the query as a raw, case-sensitive
substring, newest first, at most `limit`. -/
def specSearchCaseSensitive (s : MemState) (query : String) (limit : Nat) :
    List Decision :=
  (sortByNewest (s.decisions.filter (fun d =>
    strContains query d.context || strContains query d.decision))).take limit

/-- ASCII-case-insensitive substring containment (what `LIKE '%q%'` does on
wildcard-free `q`); used by the amended C6. -/
def containsCI (q str : String) : Bool :=
  strContains (lowerStr q) (lowerStr str)

/-! ## Derived notions used by the theorems -/

/-- The decision-state invariant of C5: an unresolved decision has an empty
outcome and a zero outcome score. -/
def unresolvedZero (s : MemState) : Prop :=
  ∀ d ∈ s.decisions, d.resolved = false → d.outcome = "" ∧ d.outcome_score = 0

instance (s : MemState) : Decidable (unresolvedZero s) :=
  inferInstanceAs (Decidable (∀ d ∈ s.decisions,
    d.resolved = false → d.outcome = "" ∧ d.outcome_score = 0))

/-- The ids of the pattern rows, in rowid order. -/
def patIds (s : MemState) : List String := s.patterns.map (fun p => p.id)

/-- An active pattern that the miner's pruning step would deactivate. -/
def weakActive (p : Pattern) : Bool := p.active && weakB p

/-- No active pattern row matches `(pt, d)` — i.e. the reinforcement lookup
of `add_pattern pt d` comes back empty. -/
def noActiveMatch (pt d : String) (s : MemState) : Prop :=
  ∀ p ∈ s.patterns, ¬(p.pattern_type = pt ∧ p.description = d ∧ p.active = true)

instance (pt d : String) (s : MemState) : Decidable (noActiveMatch pt d s) :=
  inferInstanceAs (Decidable (∀ p ∈ s.patterns,
    ¬(p.pattern_type = pt ∧ p.description = d ∧ p.active = true)))

/-- Deactivate a row when its id is listed. -/
def deactIf (ids : List String) (r : Pattern) : Pattern :=
  if r.id ∈ ids then { r with active := false } else r

/-- The description strategy 1 would build for a tag entry. -/
def tagDescOf (e : TagStat) : String := tagDesc e.tag e.wins e.losses e.total (tagWr e)

/-- The four `pattern_type`s the miner's strategies write. -/
def minedTypes : List String := ["tag_performance", "keyword_signal", "calibration", "temporal"]

/-! ## Concrete stores used by witnesses and counterexamples -/

def c1State : MemState := (add_pattern emptyMem 100 "trend" "X" 1 0.5 []).2

def c1Row : Pattern := ⟨"pat_0", "trend", "X", 1, 0.5, true, 100, 100, []⟩

def cexDec : Decision := ⟨"dec_0", 10, "btc dipped", "hold", "", 0.5, "", 0, false, []⟩

def cexSearchState : MemState := ⟨[cexDec], [], [], 1⟩

/-- A resolved decision with score `sc` and tags `tg` (empty texts, default
confidence), used to populate miner scenarios. -/
def mkResolved (n : Nat) (sc : ℚ) (tg : List String) : Decision :=
  ⟨mkDecId n, n, "", "", "", 0.5, "o", sc, true, tg⟩

def c3State : MemState :=
  ⟨(List.range 8).map (fun n => mkResolved n 1 ["breakout"]) ++
     [mkResolved 8 (-1) ["breakout"], mkResolved 9 (-1) ["breakout"]], [], [], 10⟩

def c3SmallState : MemState :=
  ⟨[mkResolved 0 1 ["breakout"], mkResolved 1 1 ["breakout"]], [], [], 2⟩

def c7WeakPat : Pattern := ⟨"pX", "trend", "weak", 1, 0.3, true, 0, 0, []⟩

def c7OkPat : Pattern := ⟨"pY", "trend", "okay", 1, 0.6, true, 0, 0, []⟩

def c7State : MemState :=
  ⟨[mkResolved 0 0 ["zzz"], mkResolved 1 0 ["zzz"], mkResolved 2 0 ["zzz"]],
   [c7WeakPat, c7OkPat], [], 3⟩

def c10State : MemState :=
  ⟨[mkResolved 0 0 ["zzz"], mkResolved 1 0 ["zzz"], mkResolved 2 0 ["zzz"]], [], [], 3⟩

def bigCat : String := String.mk (List.replicate 150 'a')

def bigSrc : String := String.mk (List.replicate 150 'b')

def c4Base : MemState := (record_decision emptyMem 5 "ctx" "act" "why" 0.7 []).2

/-- The row `record_decision s now ctx dc rs cf tg` inserts. -/
def c5NewDec (s : MemState) (now : Nat) (ctx dc rs : String) (cf : ℚ)
    (tg : List String) : Decision :=
  ⟨mkDecId s.nextId, now, truncate 2000 ctx, truncate 2000 dc, truncate 2000 rs,
   ratMax 0 (ratMin 1 cf), "", 0, false, tg⟩

def c9Base : MemState := (set_knowledge emptyMem 1000 "risk" "btc_vol" "high" "" 1).2

/-- The row that `set_knowledge s t cat key value src 1` inserts (fresh
`(cat, key)`): it expires one hour after `t`. -/
def c9Row (s : MemState) (t : Nat) (cat key value src : String) : Knowledge :=
  ⟨mkKnId s.nextId, truncate 100 cat, truncate 200 key, truncate 5000 value,
   truncate 200 src, 1, t, some (t + 3600)⟩

/-- The row that `set_knowledge s t cat key value src 0` inserts (fresh
`(cat, key)`): it never expires. -/
def c9Row0 (s : MemState) (t : Nat) (cat key value src : String) : Knowledge :=
  ⟨mkKnId s.nextId, truncate 100 cat, truncate 200 key, truncate 5000 value,
   truncate 200 src, 0, t, none⟩

/-!
# Theorems

Helper lemmas first, then one theorem per claim (with its witness or
counterexample where applicable).
-/

theorem beq_id_refl (p : Pattern) : (p.id == p.id) = true := beq_self_eq_true p.id

/-- C1: reinforcement of an existing active `(pattern_type, description)`
row: `add_pattern` returns the matched row's id, inserts nothing, sums the
evidence counts, sets confidence to `min 0.99 (old + 0.05)`, stamps
`updated_at` with the call time, and leaves every other row (and the rest
of the store) untouched. -/
theorem c1_add_pattern_reinforces (s : MemState) (now : Nat) (pt d : String)
    (ev : Int) (cf : ℚ) (tg : List String) (ex : Pattern)
    (hex : s.patterns.find? (patMatch pt d) = some ex) :
    (add_pattern s now pt d ev cf tg).1 = ex.id ∧
    (add_pattern s now pt d ev cf tg).2.patterns.length = s.patterns.length ∧
    { ex with evidence_count := ex.evidence_count + ev,
              confidence := ratMin 0.99 (ex.confidence + 0.05),
              updated_at := now } ∈ (add_pattern s now pt d ev cf tg).2.patterns ∧
    (∀ p ∈ s.patterns, p.id ≠ ex.id → p ∈ (add_pattern s now pt d ev cf tg).2.patterns) ∧
    (add_pattern s now pt d ev cf tg).2.decisions = s.decisions ∧
    (add_pattern s now pt d ev cf tg).2.nextId = s.nextId := by
  unfold add_pattern
  rw [hex]
  refine ⟨rfl, by simp, ?_, ?_, rfl, rfl⟩
  · exact List.mem_map.mpr ⟨ex, List.mem_of_find?_eq_some hex, by simp⟩
  · intro p hp hne
    refine List.mem_map.mpr ⟨p, hp, ?_⟩
    simp [hne]

/-- Witness for C1: after inserting `("trend","X",1,0.5)` into an empty
store, a second identical call reinforces: it finds the row, and the store
ends with exactly one active row with `evidence_count = 2` and
`confidence = 0.55`. -/
theorem c1_witness :
    c1State.patterns.find? (patMatch "trend" "X") = some c1Row ∧
    (add_pattern c1State 200 "trend" "X" 1 0.5 []).1 = c1Row.id ∧
    { c1Row with evidence_count := c1Row.evidence_count + 1,
                 confidence := ratMin 0.99 (c1Row.confidence + 0.05),
                 updated_at := 200 } ∈ (add_pattern c1State 200 "trend" "X" 1 0.5 []).2.patterns ∧
    (add_pattern c1State 200 "trend" "X" 1 0.5 []).2.patterns =
      [{ c1Row with evidence_count := 2, confidence := 0.55, updated_at := 200 }] := by
  have h := c1_add_pattern_reinforces c1State 200 "trend" "X" 1 0.5 [] c1Row (by decide!)
  exact ⟨by decide!, h.1, h.2.2.1, by decide!⟩

/-- C2: with eleven or more qualifying (length ≥ 3) tokens,
`get_relevant_context` builds `2·n + 1` SQL placeholders but binds only
`2·10 + 1` parameters, so `sqlite3` raises instead of returning matches for
the first 10 tokens as the spec requires; with at most ten tokens the call
succeeds. -/
theorem c2_binding_mismatch :
    get_relevant_context emptyMem
        "aaa bbb ccc ddd eee fff ggg hhh iii jjj kkk" 5 =
      Except.error "Incorrect number of bindings supplied" ∧
    get_relevant_context emptyMem "aaa bbb ccc ddd eee fff ggg hhh iii jjj" 5 =
      Except.ok [] := by
  exact ⟨by decide!, by decide!⟩

/-- C3: on the scenario store with 10 resolved decisions all tagged
"breakout" (8 wins, 2 losses), `mine_agent` runs (not skipped) and the
store ends with exactly one active `tag_performance` pattern, with
`evidence_count = 10` and `confidence = 0.8`; on the store with only 2
resolved decisions, `mine_agent` skips with reason `insufficient_data` and
the store is unchanged. -/
theorem c3_tag_mining_scenario :
    (((mine_agent c3State 1000).2.patterns.filter
        (fun p => p.pattern_type == "tag_performance")).map
      (fun p => (p.evidence_count, p.confidence, p.active))) =
        [((10 : Int), (0.8 : ℚ), true)] ∧
    (mine_agent c3State 1000).1.skipped = false ∧
    mine_agent c3SmallState 1000 =
      ({ skipped := true, reason := "insufficient_data",
         patterns_extracted := 0, patterns_pruned := 0 }, c3SmallState) := by
  refine ⟨by decide!, by decide!, by decide!⟩

/-- C4: `record_outcome` returns `true` exactly when a decision with the
given id exists; on a miss the store is untouched; every row holding the
id ends with the outcome truncated to 2000 characters, the score clamped
into `[-1, 1]`, and `resolved = true`; and on a hit such a row exists. -/
theorem c4_record_outcome (s : MemState) (did outcome : String) (score : ℚ) :
    ((record_outcome s did outcome score).1 = true ↔ ∃ d ∈ s.decisions, d.id = did) ∧
    ((∀ d ∈ s.decisions, d.id ≠ did) → (record_outcome s did outcome score).2 = s) ∧
    (∀ d ∈ (record_outcome s did outcome score).2.decisions, d.id = did →
      d.outcome = truncate 2000 outcome ∧
      d.outcome_score = ratMax (-1) (ratMin 1 score) ∧ d.resolved = true) ∧
    ((record_outcome s did outcome score).1 = true →
      ∃ d ∈ (record_outcome s did outcome score).2.decisions, d.id = did) := by
  obtain ⟨ds, ps, ks, n⟩ := s
  refine ⟨?_, ?_, ?_, ?_⟩
  · simp [record_outcome, List.any_eq_true, beq_iff_eq]
  · intro h
    have hmap : ds.map (fun d => if d.id == did then
        { d with outcome := truncate 2000 outcome,
                 outcome_score := ratMax (-1) (ratMin 1 score), resolved := true } else d) = ds := by
      have hid : ∀ d ∈ ds, (if d.id == did then
          { d with outcome := truncate 2000 outcome,
                   outcome_score := ratMax (-1) (ratMin 1 score), resolved := true } else d) = id d := by
        intro d hd
        have : (d.id == did) = false := by
          simpa [beq_iff_eq] using h d hd
        simp [this]
      rw [List.map_congr_left hid, List.map_id]
    simp only [record_outcome]
    rw [hmap]
  · intro d hd hid
    simp only [record_outcome] at hd
    obtain ⟨d0, hd0, hfd⟩ := List.mem_map.mp hd
    by_cases hmatch : (d0.id == did) = true
    · rw [if_pos hmatch] at hfd
      subst hfd
      exact ⟨rfl, rfl, rfl⟩
    · rw [if_neg (by simpa using hmatch)] at hfd
      subst hfd
      exact absurd hid (by simpa [beq_iff_eq] using hmatch)
  · intro h
    simp only [record_outcome, List.any_eq_true] at h
    obtain ⟨d0, hd0, hbeq⟩ := h
    refine ⟨_, List.mem_map_of_mem _ hd0, ?_⟩
    rw [if_pos hbeq]
    simpa [beq_iff_eq] using hbeq

/-- Witness for C4: on a store holding the single decision `dec_0`,
recording `("Won", 0.85)` against `dec_0` hits and against `nope` misses;
the general theorem instantiates there. -/
theorem c4_witness :
    (record_outcome c4Base "dec_0" "Won" 0.85).1 = true ∧
    (record_outcome c4Base "nope" "Lost" 0).1 = false ∧
    (∀ d ∈ (record_outcome c4Base "dec_0" "Won" 0.85).2.decisions, d.id = "dec_0" →
      d.outcome = truncate 2000 "Won" ∧
      d.outcome_score = ratMax (-1) (ratMin 1 0.85) ∧ d.resolved = true) := by
  exact ⟨by decide!, by decide!, (c4_record_outcome c4Base "dec_0" "Won" 0.85).2.2.1⟩

/-! ### Helper lemmas about the sorts and truncation -/

theorem mem_sortByNewest {l : List Decision} {x : Decision} :
    x ∈ sortByNewest l ↔ x ∈ l :=
  (List.perm_insertionSort byNewest l).mem_iff

theorem mem_sortByCreated {l : List Knowledge} {x : Knowledge} :
    x ∈ sortByCreated l ↔ x ∈ l :=
  (List.perm_insertionSort byCreated l).mem_iff

theorem mem_sortByConfEv {l : List Pattern} {x : Pattern} :
    x ∈ sortByConfEv l ↔ x ∈ l :=
  (List.perm_insertionSort byConfEv l).mem_iff

theorem truncate_length_le (n : Nat) (s : String) : (truncate n s).length ≤ n := by
  have : (truncate n s).length = min n s.data.length := List.length_take n s.data
  omega

theorem truncate_of_length_le {n : Nat} {s : String} (h : s.length ≤ n) :
    truncate n s = s := by
  obtain ⟨l⟩ := s
  simp only [truncate]
  exact congrArg String.mk (List.take_of_length_le h)

/-- C8: the counterexample to the claimed bounds: a 150-character category
and a 150-character source.  The claim predicts storage of
`category[:200]` and `source[:100]`; the code stores `category[:100]` and
`source[:200]`. -/
theorem c8_counterexample :
    (set_knowledge emptyMem 0 bigCat "k" "v" bigSrc 0).2.knowledge.map
        (fun k => (k.category, k.source)) ≠
      [(truncate 200 bigCat, truncate 100 bigSrc)] := by decide!

/-- C8 (amended): `set_knowledge` stores `value[:5000]`, `category[:100]`
and `source[:200]` (truncation, never rejection).  On the insert path the
new row carries exactly those fields; on the update path value and source
are rewritten (truncated) while the category — equal to the input, which
under the stored-category invariant is at most 100 characters — stays; and
the invariant that stored categories are at most 100 characters is
preserved. -/
theorem c8_set_knowledge_truncations (s : MemState) (now : Nat)
    (cat key value src : String) (ttl : Int)
    (hinv : ∀ k ∈ s.knowledge, k.category.length ≤ 100) :
    (s.knowledge.find? (knMatch cat key) = none →
      (set_knowledge s now cat key value src ttl).2.knowledge =
        s.knowledge ++
          [{ id := mkKnId s.nextId, category := truncate 100 cat, key := truncate 200 key,
             value := truncate 5000 value, source := truncate 200 src, ttl_hours := ttl,
             created_at := now,
             expires_at := if 0 < ttl then some (now + 3600 * ttl.toNat) else none }]) ∧
    (∀ ex, s.knowledge.find? (knMatch cat key) = some ex →
      ex.category = cat ∧ cat.length ≤ 100 ∧
      (set_knowledge s now cat key value src ttl).2.knowledge =
        s.knowledge.map (fun k =>
          if k.id == ex.id then
            { k with value := truncate 5000 value, source := truncate 200 src,
                     ttl_hours := ttl, created_at := now,
                     expires_at := if 0 < ttl then some (now + 3600 * ttl.toNat) else none }
          else k)) ∧
    (∀ k ∈ (set_knowledge s now cat key value src ttl).2.knowledge,
      k.category.length ≤ 100) := by
  refine ⟨?_, ?_, ?_⟩
  · intro h
    simp only [set_knowledge, h]
  · intro ex hex
    have hmatch : knMatch cat key ex = true := List.find?_some hex
    have hcat : ex.category = cat := by
      simp only [knMatch, Bool.and_eq_true, beq_iff_eq] at hmatch
      exact hmatch.1
    have hlen : cat.length ≤ 100 := hcat ▸ hinv ex (List.mem_of_find?_eq_some hex)
    exact ⟨hcat, hlen, by simp only [set_knowledge, hex]⟩
  · intro k hk
    cases hfind : s.knowledge.find? (knMatch cat key) with
    | none =>
      simp only [set_knowledge, hfind] at hk
      rcases List.mem_append.mp hk with h | h
      · exact hinv k h
      · rcases List.mem_singleton.mp h with rfl
        exact truncate_length_le 100 cat
    | some ex =>
      simp only [set_knowledge, hfind] at hk
      obtain ⟨k0, hk0, hfk⟩ := List.mem_map.mp hk
      have : k.category = k0.category := by
        by_cases hid : (k0.id == ex.id) = true
        · rw [if_pos hid] at hfk; subst hfk; rfl
        · rw [if_neg (by simpa using hid)] at hfk; subst hfk; rfl
      rw [this]
      exact hinv k0 hk0

/-- Witness for C8: inserting the 150-character category and source into an
empty store goes through the insert path with the amended truncations. -/
theorem c8_witness :
    (∀ k ∈ emptyMem.knowledge, k.category.length ≤ 100) ∧
    ((set_knowledge emptyMem 0 bigCat "k" "v" bigSrc 0).2.knowledge =
      emptyMem.knowledge ++
        [{ id := mkKnId emptyMem.nextId, category := truncate 100 bigCat,
           key := truncate 200 "k", value := truncate 5000 "v",
           source := truncate 200 bigSrc, ttl_hours := 0, created_at := 0,
           expires_at := if (0 : Int) < 0 then some (0 + 3600 * (0 : Int).toNat) else none }]) :=
  ⟨by decide!,
   (c8_set_knowledge_truncations emptyMem 0 bigCat "k" "v" bigSrc 0 (by decide!)).1 rfl⟩

/-- C9: every `get_knowledge` call first physically deletes the rows whose
`expires_at` is set and earlier than now, and returns only unexpired rows;
a fact stored with `ttl_hours = 1` is in the results while `now` is within
one hour of creation, and is gone — from the results and from the store —
as soon as `now` exceeds creation + 1h; a fact stored with `ttl_hours = 0`
never expires. -/
theorem c9_knowledge_expiry (s : MemState) (t : Nat) (cat key value src : String)
    (hfind : s.knowledge.find? (knMatch cat key) = none) :
    (∀ s0 now c k,
      (get_knowledge s0 now c k).2.knowledge =
        s0.knowledge.filter (fun r => !expiredAt now r) ∧
      ∀ r ∈ (get_knowledge s0 now c k).1, expiredAt now r = false) ∧
    ((set_knowledge s t cat key value src 1).2.knowledge =
      s.knowledge ++ [c9Row s t cat key value src] ∧
     (∀ now1, now1 ≤ t + 3600 →
       c9Row s t cat key value src ∈
         (get_knowledge (set_knowledge s t cat key value src 1).2 now1 none none).1) ∧
     (∀ now2, t + 3600 < now2 →
       c9Row s t cat key value src ∉
         (get_knowledge (set_knowledge s t cat key value src 1).2 now2 none none).1 ∧
       c9Row s t cat key value src ∉
         (get_knowledge (set_knowledge s t cat key value src 1).2 now2 none none).2.knowledge)) ∧
    ((set_knowledge s t cat key value src 0).2.knowledge =
      s.knowledge ++ [c9Row0 s t cat key value src] ∧
     ∀ now, c9Row0 s t cat key value src ∈
       (get_knowledge (set_knowledge s t cat key value src 0).2 now none none).1) := by
  have hset1 : (set_knowledge s t cat key value src 1).2.knowledge =
      s.knowledge ++ [c9Row s t cat key value src] := by
    simp only [set_knowledge, hfind, c9Row]
    norm_num
  have hset0 : (set_knowledge s t cat key value src 0).2.knowledge =
      s.knowledge ++ [c9Row0 s t cat key value src] := by
    simp only [set_knowledge, hfind, c9Row0]
    norm_num
  refine ⟨?_, ⟨hset1, ?_, ?_⟩, hset0, ?_⟩
  · intro s0 now c k
    refine ⟨rfl, ?_⟩
    intro r hr
    have hr2 := mem_sortByCreated.mp hr
    have hr3 := (List.mem_filter.mp hr2).1
    have := (List.mem_filter.mp hr3).2
    simpa using this
  · intro now1 h1
    simp only [get_knowledge]
    rw [mem_sortByCreated]
    refine List.mem_filter.mpr ⟨?_, by simp⟩
    refine List.mem_filter.mpr ⟨?_, ?_⟩
    · rw [hset1]
      exact List.mem_append_right _ (List.mem_singleton.mpr rfl)
    · simp [expiredAt, c9Row, Nat.not_lt.mpr h1]
  · intro now2 h2
    have hexp : expiredAt now2 (c9Row s t cat key value src) = true := by
      simp [expiredAt, c9Row, h2]
    constructor
    · intro hmem
      have hr2 := mem_sortByCreated.mp hmem
      have hr3 := (List.mem_filter.mp hr2).1
      have := (List.mem_filter.mp hr3).2
      rw [hexp] at this
      simp at this
    · intro hmem
      have := (List.mem_filter.mp hmem).2
      rw [hexp] at this
      simp at this
  · intro now
    simp only [get_knowledge]
    rw [mem_sortByCreated]
    refine List.mem_filter.mpr ⟨?_, by simp⟩
    refine List.mem_filter.mpr ⟨?_, ?_⟩
    · rw [hset0]
      exact List.mem_append_right _ (List.mem_singleton.mpr rfl)
    · simp [expiredAt, c9Row0]

/-- Witness for C9: on the store holding one fact created at `t = 1000`
with `ttl_hours = 1`, the fact is in the results at `now = 2000` and gone
from the store at `now = 4601`. -/
theorem c9_witness :
    emptyMem.knowledge.find? (knMatch "risk" "btc_vol") = none ∧
    c9Row emptyMem 1000 "risk" "btc_vol" "high" "" ∈
      (get_knowledge c9Base 2000 none none).1 ∧
    c9Row emptyMem 1000 "risk" "btc_vol" "high" "" ∉
      (get_knowledge c9Base 4601 none none).2.knowledge := by
  have h := c9_knowledge_expiry emptyMem 1000 "risk" "btc_vol" "high" "" rfl
  exact ⟨rfl, h.2.1.2.1 2000 (by omega), (h.2.1.2.2 4601 (by omega)).2⟩

theorem sortByNewest_sorted (l : List Decision) :
    List.Sorted byNewest (sortByNewest l) := List.sorted_insertionSort byNewest l

/-- If `x` is in `l` and strictly newer than every other element, any
timestamp-descending ordering of `l` puts `x` first. -/
theorem sortByNewest_head {l : List Decision} {x : Decision} (hx : x ∈ l)
    (hmax : ∀ y ∈ l, y = x ∨ y.timestamp < x.timestamp) :
    ∃ tl, sortByNewest l = x :: tl := by
  cases hsl : sortByNewest l with
  | nil =>
    exfalso
    have hxs := mem_sortByNewest.mpr hx
    rw [hsl] at hxs
    exact absurd hxs (List.not_mem_nil x)
  | cons h tl =>
    have hh : h ∈ l := mem_sortByNewest.mp (hsl ▸ List.mem_cons_self h tl)
    rcases hmax h hh with rfl | hlt
    · exact ⟨tl, rfl⟩
    · have hxs := mem_sortByNewest.mpr hx
      rw [hsl] at hxs
      rcases List.mem_cons.mp hxs with rfl | hxt
      · exact ⟨tl, rfl⟩
      · have hsorted := sortByNewest_sorted l
        rw [hsl] at hsorted
        have hle : byNewest h x := (List.sorted_cons.mp hsorted).1 x hxt
        exfalso
        simp only [byNewest] at hle
        omega

/-- C5: `record_decision` appends exactly the unresolved row (empty
outcome, zero score, clamped confidence); the invariant "unresolved ⇒
empty outcome and zero score" is preserved by `record_decision` and
`record_outcome`; `record_outcome` sets `resolved` on every row it
touches; an immediate `get_recent_decisions 1` returns exactly the new
row; and no other operation writes the decisions table. -/
theorem c5_decision_state_invariant (s : MemState) (now : Nat)
    (ctx dc rs : String) (cf : ℚ) (tg : List String)
    (did outc : String) (sc : ℚ)
    (pt pd : String) (pev : Int) (pcf : ℚ) (ptg : List String)
    (kc kk kv ks : String) (kttl : Int) (gnow : Nat) (gc gk : Option String)
    (hinv : unresolvedZero s)
    (hfresh : ∀ d ∈ s.decisions, d.timestamp < now) :
    (record_decision s now ctx dc rs cf tg).2.decisions =
      s.decisions ++ [c5NewDec s now ctx dc rs cf tg] ∧
    (c5NewDec s now ctx dc rs cf tg).resolved = false ∧
    (c5NewDec s now ctx dc rs cf tg).outcome = "" ∧
    (c5NewDec s now ctx dc rs cf tg).outcome_score = 0 ∧
    (c5NewDec s now ctx dc rs cf tg).confidence = ratMax 0 (ratMin 1 cf) ∧
    unresolvedZero (record_decision s now ctx dc rs cf tg).2 ∧
    unresolvedZero (record_outcome s did outc sc).2 ∧
    (∀ d ∈ (record_outcome s did outc sc).2.decisions, d.id = did →
      d.resolved = true) ∧
    get_recent_decisions (record_decision s now ctx dc rs cf tg).2 1 false =
      [c5NewDec s now ctx dc rs cf tg] ∧
    (add_pattern s now pt pd pev pcf ptg).2.decisions = s.decisions ∧
    (set_knowledge s now kc kk kv ks kttl).2.decisions = s.decisions ∧
    (get_knowledge s gnow gc gk).2.decisions = s.decisions := by
  refine ⟨rfl, rfl, rfl, rfl, rfl, ?_, ?_, ?_, ?_, ?_, ?_, rfl⟩
  · intro d hd hres
    simp only [record_decision] at hd
    rcases List.mem_append.mp hd with h | h
    · exact hinv d h hres
    · rcases List.mem_singleton.mp h with rfl
      exact ⟨rfl, rfl⟩
  · intro d hd hres
    simp only [record_outcome] at hd
    obtain ⟨d0, hd0, hfd⟩ := List.mem_map.mp hd
    by_cases hmatch : (d0.id == did) = true
    · rw [if_pos hmatch] at hfd
      subst hfd
      simp at hres
    · rw [if_neg (by simpa using hmatch)] at hfd
      subst hfd
      exact hinv d0 hd0 hres
  · intro d hd hid
    simp only [record_outcome] at hd
    obtain ⟨d0, hd0, hfd⟩ := List.mem_map.mp hd
    by_cases hmatch : (d0.id == did) = true
    · rw [if_pos hmatch] at hfd
      subst hfd
      rfl
    · rw [if_neg (by simpa using hmatch)] at hfd
      subst hfd
      exact absurd hid (by simpa [beq_iff_eq] using hmatch)
  · have hmem : c5NewDec s now ctx dc rs cf tg ∈
        s.decisions ++ [c5NewDec s now ctx dc rs cf tg] :=
      List.mem_append_right _ (List.mem_singleton.mpr rfl)
    have hmax : ∀ y ∈ s.decisions ++ [c5NewDec s now ctx dc rs cf tg],
        y = c5NewDec s now ctx dc rs cf tg ∨
          y.timestamp < (c5NewDec s now ctx dc rs cf tg).timestamp := by
      intro y hy
      rcases List.mem_append.mp hy with h | h
      · exact Or.inr (hfresh y h)
      · exact Or.inl (List.mem_singleton.mp h)
    obtain ⟨tl, htl⟩ := sortByNewest_head hmem hmax
    show (sortByNewest (s.decisions ++ [c5NewDec s now ctx dc rs cf tg])).take 1 = _
    rw [htl]
    rfl
  · cases h : s.patterns.find? (patMatch pt pd) with
    | none => simp only [add_pattern, h]
    | some ex => simp only [add_pattern, h]
  · cases h : s.knowledge.find? (knMatch kc kk) with
    | none => simp only [set_knowledge, h]
    | some ex => simp only [set_knowledge, h]

/-- Witness for C5: recording a decision into the empty store and reading
the most recent decision back returns exactly the new unresolved row. -/
theorem c5_witness :
    unresolvedZero emptyMem ∧ (∀ d ∈ emptyMem.decisions, d.timestamp < 5) ∧
    get_recent_decisions
        (record_decision emptyMem 5 "BTC high vol" "Take YES" "FG=25" 0.7 []).2 1 false =
      [c5NewDec emptyMem 5 "BTC high vol" "Take YES" "FG=25" 0.7 []] :=
  ⟨by decide!, by decide!,
   (c5_decision_state_invariant emptyMem 5 "BTC high vol" "Take YES" "FG=25" 0.7 []
      "x" "o" 0 "t" "d" 1 0.5 [] "c" "k" "v" "sr" 0 0 none none
      (by decide!) (by decide!)).2.2.2.2.2.2.2.2.1⟩

/-! ### The `LIKE '%q%'` ↔ substring theory behind C6 -/

theorem suffixAny_eq_true (f : List Char → Bool) :
    ∀ s : List Char, (suffixAny f s = true ↔ ∃ a b, s = a ++ b ∧ f b = true)
  | [] => by
    constructor
    · intro h
      exact ⟨[], [], rfl, h⟩
    · rintro ⟨a, b, hab, hb⟩
      obtain ⟨rfl, rfl⟩ := List.append_eq_nil.mp hab.symm
      exact hb
  | c :: t => by
    simp only [suffixAny, Bool.or_eq_true]
    constructor
    · rintro (h | h)
      · exact ⟨[], c :: t, rfl, h⟩
      · obtain ⟨a, b, hab, hb⟩ := (suffixAny_eq_true f t).mp h
        exact ⟨c :: a, b, by rw [hab]; rfl, hb⟩
    · rintro ⟨a, b, hab, hb⟩
      cases a with
      | nil =>
        rw [List.nil_append] at hab
        exact Or.inl (hab ▸ hb)
      | cons a' as =>
        rw [List.cons_append, List.cons.injEq] at hab
        exact Or.inr ((suffixAny_eq_true f t).mpr ⟨as, b, hab.2, hb⟩)

theorem likeM_plain :
    ∀ (q : List Char), (∀ c ∈ q, c ≠ '%' ∧ c ≠ '_') →
      ∀ s : List Char,
        (likeM q s = true ↔ s.map Char.toLower = q.map Char.toLower)
  | [], _, s => by
    cases s <;> simp [likeM]
  | c :: ps, hq, s => by
    have hc := hq c (List.mem_cons_self c ps)
    have hps : ∀ c' ∈ ps, c' ≠ '%' ∧ c' ≠ '_' :=
      fun c' h => hq c' (List.mem_cons_of_mem c h)
    cases s with
    | nil =>
      simp [likeM, if_neg hc.1, if_neg hc.2]
    | cons d t =>
      simp only [likeM, if_neg hc.1, if_neg hc.2, Bool.and_eq_true, eqCI,
        beq_iff_eq, List.map_cons, List.cons.injEq]
      rw [likeM_plain ps hps t]
      constructor
      · rintro ⟨h1, h2⟩
        exact ⟨h1.symm, h2⟩
      · rintro ⟨h1, h2⟩
        exact ⟨h1.symm, h2⟩

theorem likeM_append_pct :
    ∀ (q : List Char), (∀ c ∈ q, c ≠ '%' ∧ c ≠ '_') →
      ∀ s : List Char,
        (likeM (q ++ ['%']) s = true ↔
          ∃ a b, s = a ++ b ∧ a.map Char.toLower = q.map Char.toLower)
  | [], _, s => by
    constructor
    · intro _
      exact ⟨[], s, rfl, rfl⟩
    · intro _
      show suffixAny (likeM []) s = true
      exact (suffixAny_eq_true (likeM []) s).mpr
        ⟨s, [], (List.append_nil s).symm, rfl⟩
  | c :: ps, hq, s => by
    have hc := hq c (List.mem_cons_self c ps)
    have hps : ∀ c' ∈ ps, c' ≠ '%' ∧ c' ≠ '_' :=
      fun c' h => hq c' (List.mem_cons_of_mem c h)
    cases s with
    | nil =>
      simp only [List.cons_append, likeM, if_neg hc.1, if_neg hc.2]
      constructor
      · intro h
        exact absurd h (by simp)
      · rintro ⟨a, b, hab, hmap⟩
        obtain ⟨rfl, rfl⟩ := List.append_eq_nil.mp hab.symm
        simp at hmap
    | cons d t =>
      simp only [List.cons_append, likeM, if_neg hc.1, if_neg hc.2,
        Bool.and_eq_true, eqCI, beq_iff_eq]
      show c.toLower = d.toLower ∧ likeM (ps ++ ['%']) t = true ↔ _
      rw [likeM_append_pct ps hps t]
      constructor
      · rintro ⟨h1, a, b, hab, hmap⟩
        exact ⟨d :: a, b, by rw [hab]; rfl, by
          simp only [List.map_cons, hmap, List.cons.injEq]
          exact ⟨h1.symm, trivial⟩⟩
      · rintro ⟨a, b, hab, hmap⟩
        cases a with
        | nil => simp at hmap
        | cons a' as =>
          rw [List.cons_append, List.cons.injEq] at hab
          simp only [List.map_cons, List.cons.injEq] at hmap
          obtain ⟨rfl, rfl⟩ := hab
          exact ⟨hmap.1.symm, as, b, rfl, hmap.2⟩

theorem listPrefixB_iff :
    ∀ (p l : List Char), (listPrefixB p l = true ↔ ∃ v, l = p ++ v)
  | [], l => by
    simp [listPrefixB]
  | a :: as, [] => by
    simp [listPrefixB]
  | a :: as, b :: bs => by
    simp only [listPrefixB, Bool.and_eq_true, beq_iff_eq]
    rw [listPrefixB_iff as bs]
    constructor
    · rintro ⟨rfl, v, rfl⟩
      exact ⟨v, rfl⟩
    · rintro ⟨v, hv⟩
      rw [List.cons_append, List.cons.injEq] at hv
      exact ⟨hv.1.symm, v, hv.2⟩

theorem listInfixB_iff :
    ∀ (p l : List Char), (listInfixB p l = true ↔ ∃ u v, l = u ++ (p ++ v))
  | p, [] => by
    simp only [listInfixB]
    rw [listPrefixB_iff p []]
    constructor
    · rintro ⟨v, hv⟩
      exact ⟨[], v, hv⟩
    · rintro ⟨u, v, huv⟩
      obtain ⟨rfl, h2⟩ := List.append_eq_nil.mp huv.symm
      exact ⟨v, h2.symm⟩
  | p, c :: t => by
    simp only [listInfixB, Bool.or_eq_true]
    rw [listPrefixB_iff p (c :: t), listInfixB_iff p t]
    constructor
    · rintro (⟨v, hv⟩ | ⟨u, v, huv⟩)
      · exact ⟨[], v, hv⟩
      · exact ⟨c :: u, v, by rw [huv]; rfl⟩
    · rintro ⟨u, v, huv⟩
      cases u with
      | nil => exact Or.inl ⟨v, huv⟩
      | cons u' us =>
        rw [List.cons_append, List.cons.injEq] at huv
        exact Or.inr ⟨us, v, huv.2⟩

theorem sqlLike_pct_eq_containsCI (q : String)
    (hq : ∀ c ∈ q.data, c ≠ '%' ∧ c ≠ '_') (str : String) :
    sqlLike ("%" ++ q ++ "%") str = containsCI q str := by
  apply Bool.eq_iff_iff.mpr
  show likeM (("%" ++ q ++ "%").data) str.data = true ↔ _
  have hdata : ("%" ++ q ++ "%").data = '%' :: (q.data ++ ['%']) := by
    show ("%".data ++ q.data) ++ "%".data = '%' :: (q.data ++ ['%'])
    simp
  rw [hdata]
  have hstep : likeM ('%' :: (q.data ++ ['%'])) str.data =
      suffixAny (likeM (q.data ++ ['%'])) str.data := by
    simp [likeM]
  rw [hstep, suffixAny_eq_true]
  constructor
  · rintro ⟨u, b, hub, hb⟩
    obtain ⟨a2, b2, hb2, hmap⟩ := (likeM_append_pct q.data hq b).mp hb
    show listInfixB (lowerStr q).data (lowerStr str).data = true
    rw [listInfixB_iff]
    refine ⟨u.map Char.toLower, b2.map Char.toLower, ?_⟩
    show str.data.map Char.toLower = _
    rw [hub, hb2, List.map_append, List.map_append, hmap]
    rfl
  · intro h
    rw [show containsCI q str = listInfixB (lowerStr q).data (lowerStr str).data from rfl,
      listInfixB_iff] at h
    obtain ⟨u, v, huv⟩ := h
    have huv2 : str.data.map Char.toLower = u ++ (q.data.map Char.toLower ++ v) := huv
    obtain ⟨u0, rest0, hsplit, hu0, hrest0⟩ := List.map_eq_append_iff.mp huv2
    obtain ⟨a0, b0, hsplit2, ha0, hb0⟩ := List.map_eq_append_iff.mp hrest0
    refine ⟨u0, rest0, hsplit, ?_⟩
    exact (likeM_append_pct q.data hq rest0).mpr ⟨a0, b0, hsplit2, ha0⟩

/-- C6: the counterexample to case-sensitive search: SQLite `LIKE` is
ASCII-case-insensitive, so searching "BTC" returns the decision whose
context is "btc dipped", while the claim's case-sensitive reading returns
nothing. -/
theorem c6_counterexample :
    search_decisions cexSearchState "BTC" 10 = [cexDec] ∧
    specSearchCaseSensitive cexSearchState "BTC" 10 = [] ∧
    search_decisions cexSearchState "BTC" 10 ≠
      specSearchCaseSensitive cexSearchState "BTC" 10 := by
  exact ⟨by decide!, by decide!, by decide!⟩

/-- C6 (amended): for a query with no `LIKE` wildcards (`%`, `_`),
`search_decisions` returns exactly the decisions whose context or decision
text contains the query as an ASCII-case-insensitive substring, newest
first, at most `limit` of them. -/
theorem c6_search_decisions_ci (s : MemState) (query : String) (limit : Nat)
    (hq : ∀ c ∈ query.data, c ≠ '%' ∧ c ≠ '_') :
    search_decisions s query limit =
      (sortByNewest (s.decisions.filter (fun d =>
        containsCI query d.context || containsCI query d.decision))).take limit := by
  unfold search_decisions
  show (sortByNewest (s.decisions.filter (fun d =>
      sqlLike ("%" ++ query ++ "%") d.context ||
        sqlLike ("%" ++ query ++ "%") d.decision))).take limit = _
  have hpt : ∀ d ∈ s.decisions,
      (sqlLike ("%" ++ query ++ "%") d.context ||
        sqlLike ("%" ++ query ++ "%") d.decision) =
      (containsCI query d.context || containsCI query d.decision) := by
    intro d _
    rw [sqlLike_pct_eq_containsCI query hq, sqlLike_pct_eq_containsCI query hq]
  rw [List.filter_congr hpt]

/-- Witness for C6's amended theorem at a concrete store and query. -/
theorem c6_witness :
    (∀ c ∈ ("btc" : String).data, c ≠ '%' ∧ c ≠ '_') ∧
    search_decisions cexSearchState "btc" 10 =
      (sortByNewest (cexSearchState.decisions.filter (fun d =>
        containsCI "btc" d.context || containsCI "btc" d.decision))).take 10 :=
  ⟨by decide!, c6_search_decisions_ci cexSearchState "btc" 10 (by decide!)⟩

/-! ### Machinery for the miner theorems (C7, C10)

The strategies only ever append pattern rows or reinforce existing ones;
these lemmas track row ids and membership through the emission fold. -/

theorem patIds_add_pattern (s : MemState) (now : Nat) (pt d : String)
    (ev : Int) (cf : ℚ) (tg : List String) :
    patIds (add_pattern s now pt d ev cf tg).2 = patIds s ∨
    patIds (add_pattern s now pt d ev cf tg).2 = patIds s ++ [mkPatId s.nextId] := by
  cases h : s.patterns.find? (patMatch pt d) with
  | some ex =>
    left
    simp only [add_pattern, h, patIds, List.map_map]
    apply List.map_congr_left
    intro p _
    by_cases hid : p.id = ex.id <;> simp [Function.comp, hid]
  | none =>
    right
    simp only [add_pattern, h, patIds, List.map_append]
    rfl

theorem patIds_maybeAdd_sublist (now : Nat) (st : MemState × Nat)
    (em : Option Emission) :
    List.Sublist (patIds st.1) (patIds (maybeAdd now st em).1) := by
  cases em with
  | none => exact List.Sublist.refl _
  | some e =>
    show List.Sublist (patIds st.1)
      (patIds (add_pattern st.1 now e.ptype e.desc e.ev e.conf []).2)
    rcases patIds_add_pattern st.1 now e.ptype e.desc e.ev e.conf [] with h | h
    · rw [h]
    · rw [h]
      exact List.sublist_append_left _ _

theorem patIds_foldAdds_sublist (now : Nat) :
    ∀ (ems : List (Option Emission)) (st : MemState × Nat),
      List.Sublist (patIds st.1) (patIds (ems.foldl (maybeAdd now) st).1)
  | [], _ => List.Sublist.refl _
  | em :: ems, st =>
    List.Sublist.trans (patIds_maybeAdd_sublist now st em)
      (patIds_foldAdds_sublist now ems (maybeAdd now st em))

theorem patIds_inj {s : MemState} (hN : (patIds s).Nodup) {a b : Pattern}
    (ha : a ∈ s.patterns) (hb : b ∈ s.patterns) (hid : a.id = b.id) : a = b :=
  List.inj_on_of_nodup_map hN ha hb hid

theorem add_pattern_keeps {s : MemState} (hN : (patIds s).Nodup) {p : Pattern}
    (hp : p ∈ s.patterns) (now : Nat) {pt d : String} (ev : Int) (cf : ℚ)
    (tg : List String) (hdiff : p.pattern_type ≠ pt ∨ p.description ≠ d) :
    p ∈ (add_pattern s now pt d ev cf tg).2.patterns := by
  cases h : s.patterns.find? (patMatch pt d) with
  | none =>
    simp only [add_pattern, h]
    exact List.mem_append_left _ hp
  | some ex =>
    simp only [add_pattern, h]
    have hexm : ex ∈ s.patterns := List.mem_of_find?_eq_some h
    have hexp := List.find?_some h
    simp only [patMatch, Bool.and_eq_true, beq_iff_eq] at hexp
    have hne : p ≠ ex := by
      rintro rfl
      rcases hdiff with h1 | h1
      · exact h1 hexp.1.1
      · exact h1 hexp.1.2
    have hidne : (p.id == ex.id) = false := by
      rw [beq_eq_false_iff_ne]
      intro hid
      exact hne (patIds_inj hN hp hexm hid)
    refine List.mem_map.mpr ⟨p, hp, ?_⟩
    rw [if_neg (by simp [hidne])]

theorem foldAdds_keeps (now : Nat) :
    ∀ (ems : List (Option Emission)) (st : MemState × Nat) (p : Pattern),
      (patIds (ems.foldl (maybeAdd now) st).1).Nodup →
      p ∈ st.1.patterns →
      (∀ em ∈ ems, ∀ e : Emission, em = some e →
        p.pattern_type ≠ e.ptype ∨ p.description ≠ e.desc) →
      p ∈ (ems.foldl (maybeAdd now) st).1.patterns
  | [], _, _, _, hp, _ => hp
  | em :: ems, st, p, hN, hp, hdiff => by
    have hsub : List.Sublist (patIds st.1)
        (patIds ((em :: ems).foldl (maybeAdd now) st).1) :=
      patIds_foldAdds_sublist now (em :: ems) st
    have hN0 : (patIds st.1).Nodup := List.Nodup.sublist hsub hN
    have hp1 : p ∈ (maybeAdd now st em).1.patterns := by
      cases em with
      | none => exact hp
      | some e =>
        exact add_pattern_keeps hN0 hp now e.ev e.conf []
          (hdiff (some e) (List.mem_cons_self _ _) e rfl)
    exact foldAdds_keeps now ems (maybeAdd now st em) p hN hp1
      (fun em' hm e he => hdiff em' (List.mem_cons_of_mem _ hm) e he)

theorem maybeAdd_noActive {pt d : String} (now : Nat) (st : MemState × Nat)
    (em : Option Emission) (hs : noActiveMatch pt d st.1)
    (hcond : ∀ e : Emission, em = some e →
      ¬(truncate 100 e.ptype = pt ∧ truncate 1000 e.desc = d)) :
    noActiveMatch pt d (maybeAdd now st em).1 := by
  cases em with
  | none => exact hs
  | some e =>
    intro p hp
    cases h : st.1.patterns.find? (patMatch e.ptype e.desc) with
    | some ex =>
      simp only [maybeAdd, add_pattern, h] at hp
      obtain ⟨p0, hp0, hfp⟩ := List.mem_map.mp hp
      by_cases hid : (p0.id == ex.id) = true
      · rw [if_pos hid] at hfp
        subst hfp
        intro hcontra
        exact hs p0 hp0 ⟨hcontra.1, hcontra.2.1, hcontra.2.2⟩
      · rw [if_neg (by simpa using hid)] at hfp
        subst hfp
        exact hs p0 hp0
    | none =>
      simp only [maybeAdd, add_pattern, h] at hp
      rcases List.mem_append.mp hp with hold | hnew
      · exact hs p hold
      · rcases List.mem_singleton.mp hnew with rfl
        intro hcontra
        exact hcond e rfl ⟨hcontra.1, hcontra.2.1⟩

theorem foldAdds_noActive {pt d : String} (now : Nat) :
    ∀ (ems : List (Option Emission)) (st : MemState × Nat),
      noActiveMatch pt d st.1 →
      (∀ em ∈ ems, ∀ e : Emission, em = some e →
        ¬(truncate 100 e.ptype = pt ∧ truncate 1000 e.desc = d)) →
      noActiveMatch pt d (ems.foldl (maybeAdd now) st).1
  | [], _, hs, _ => hs
  | em :: ems, st, hs, hcond =>
    foldAdds_noActive now ems (maybeAdd now st em)
      (maybeAdd_noActive now st em hs
        (fun e he => hcond em (List.mem_cons_self _ _) e he))
      (fun em' hm e he => hcond em' (List.mem_cons_of_mem _ hm) e he)

theorem add_pattern_inserts {s : MemState} {pt d : String}
    (hs : noActiveMatch pt d s) (now : Nat) (ev : Int) (cf : ℚ)
    (tg : List String) :
    (add_pattern s now pt d ev cf tg).2.patterns =
      s.patterns ++
        [{ id := mkPatId s.nextId, pattern_type := truncate 100 pt,
           description := truncate 1000 d, evidence_count := ev,
           confidence := ratMax 0 (ratMin 1 cf), active := true,
           created_at := now, updated_at := now, tags := tg }] := by
  have hfind : s.patterns.find? (patMatch pt d) = none := by
    rw [List.find?_eq_none]
    intro p hp
    intro hmatch
    simp only [patMatch, Bool.and_eq_true, beq_iff_eq] at hmatch
    exact hs p hp ⟨hmatch.1.1, hmatch.1.2, hmatch.2⟩
  simp only [add_pattern, hfind]

/-- Through a run of `maybeAdd` steps in which no emission matches
`(pt, d)` (as stored, i.e. truncated), an insertion of `(pt, d)` happens
exactly when the marked emission is reached, and the inserted row survives
to the end. -/
theorem foldAdds_creates {pt d : String} (now : Nat) (e0 : Emission)
    (hpt : e0.ptype = pt) (hd : e0.desc = d)
    (hpt100 : truncate 100 pt = pt) (hd1000 : truncate 1000 d = d) :
    ∀ (pre post : List (Option Emission)) (st : MemState × Nat),
      (patIds ((pre ++ some e0 :: post).foldl (maybeAdd now) st).1).Nodup →
      noActiveMatch pt d st.1 →
      (∀ em ∈ pre, ∀ e : Emission, em = some e →
        ¬(truncate 100 e.ptype = pt ∧ truncate 1000 e.desc = d)) →
      (∀ em ∈ post, ∀ e : Emission, em = some e →
        pt ≠ e.ptype ∨ d ≠ e.desc) →
      ∃ pid, Pattern.mk pid pt d e0.ev (ratMax 0 (ratMin 1 e0.conf)) true now now []
        ∈ ((pre ++ some e0 :: post).foldl (maybeAdd now) st).1.patterns
  | [], post, st, hN, hs, _, hpost => by
    simp only [List.nil_append, List.foldl_cons]
    set st1 := maybeAdd now st (some e0) with hst1
    have hrow : Pattern.mk (mkPatId st.1.nextId) pt d e0.ev
        (ratMax 0 (ratMin 1 e0.conf)) true now now [] ∈ st1.1.patterns := by
      show _ ∈ (add_pattern st.1 now e0.ptype e0.desc e0.ev e0.conf []).2.patterns
      rw [hpt, hd] at *
      rw [add_pattern_inserts hs now e0.ev e0.conf [], hpt100, hd1000]
      exact List.mem_append_right _ (List.mem_singleton.mpr rfl)
    refine ⟨mkPatId st.1.nextId, ?_⟩
    have hN1 : (patIds (post.foldl (maybeAdd now) st1).1).Nodup := by
      simpa only [List.nil_append, List.foldl_cons] using hN
    exact foldAdds_keeps now post st1 _ hN1 hrow
      (fun em hm e he => by
        rcases hpost em hm e he with h | h
        · exact Or.inl h
        · exact Or.inr h)
  | em :: pre, post, st, hN, hs, hpre, hpost => by
    simp only [List.cons_append, List.foldl_cons]
    have hs1 : noActiveMatch pt d (maybeAdd now st em).1 :=
      maybeAdd_noActive now st em hs
        (fun e he => hpre em (List.mem_cons_self _ _) e he)
    have hN1 : (patIds ((pre ++ some e0 :: post).foldl (maybeAdd now)
        (maybeAdd now st em)).1).Nodup := by
      simpa only [List.cons_append, List.foldl_cons] using hN
    exact foldAdds_creates now e0 hpt hd hpt100 hd1000 pre post
      (maybeAdd now st em) hN1 hs1
      (fun em' hm e he => hpre em' (List.mem_cons_of_mem _ hm) e he) hpost

theorem get_active_patterns_none (s : MemState) :
    get_active_patterns s none 0 =
      sortByConfEv (s.patterns.filter (fun p => p.active)) := by
  unfold get_active_patterns
  congr 1
  apply List.filter_congr
  intro p _
  simp

/-- The pruning fold deactivates exactly the rows whose id is that of a
weak entry of the fetched list. -/
theorem foldDeact :
    ∀ (L : List Pattern) (acc : Nat) (st : MemState),
      (L.foldl
        (fun acc p => if weakB p then (acc.1 + 1, (deactivate_pattern acc.2 p.id).2) else acc)
        (acc, st)).2 =
      { st with patterns := st.patterns.map (fun r =>
          if r.id ∈ (L.filter weakB).map (fun p => p.id)
          then { r with active := false } else r) }
  | [], acc, st => by
    obtain ⟨ds, ps, ks, n⟩ := st
    simp [List.not_mem_nil]
  | p :: L, acc, st => by
    obtain ⟨ds, ps, ks, n⟩ := st
    by_cases hw : weakB p = true
    · rw [List.foldl_cons, List.filter_cons_of_pos hw]
      simp only [if_pos hw]
      rw [foldDeact L (acc + 1) (deactivate_pattern ⟨ds, ps, ks, n⟩ p.id).2]
      simp only [deactivate_pattern, List.map_map, List.map_cons, MemState.mk.injEq,
        and_true, true_and]
      apply List.map_congr_left
      intro r _
      simp only [Function.comp_apply]
      by_cases hr : r.id = p.id
      · have hbeq : (r.id == p.id) = true := beq_iff_eq.mpr hr
        rw [if_pos hbeq]
        show (if r.id ∈ (L.filter weakB).map (fun p => p.id)
            then ({ r with active := false } : Pattern) else { r with active := false }) = _
        rw [ite_self, if_pos (List.mem_cons.mpr (Or.inl hr))]
      · have hbeq : (r.id == p.id) = false := by
          rw [beq_eq_false_iff_ne]
          exact hr
        simp only [hbeq, Bool.false_eq_true, if_false]
        by_cases hmem : r.id ∈ (L.filter weakB).map (fun p => p.id)
        · rw [if_pos hmem, if_pos (List.mem_cons.mpr (Or.inr hmem))]
        · rw [if_neg hmem, if_neg (by simp [List.mem_cons, hr, hmem])]
    · rw [List.foldl_cons, List.filter_cons_of_neg (by simpa using hw)]
      rw [if_neg hw]
      exact foldDeact L acc ⟨ds, ps, ks, n⟩

theorem pruneWeak_spec (s : MemState) :
    (pruneWeak s).2 =
      { s with patterns := s.patterns.map (fun r =>
          if r.id ∈ ((get_active_patterns s none 0).filter weakB).map (fun p => p.id)
          then { r with active := false } else r) } := by
  unfold pruneWeak
  exact foldDeact (get_active_patterns s none 0) 0 s

/-- For a pattern of the pre-prune store, having one's id among the ids the
pruning loop deactivates is exactly being weak and active — provided ids
are unique. -/
theorem prune_id_cond {s4 : MemState} (hN : (patIds s4).Nodup) {r : Pattern}
    (hr : r ∈ s4.patterns) :
    (r.id ∈ ((get_active_patterns s4 none 0).filter weakB).map (fun p => p.id)) ↔
      weakActive r = true := by
  constructor
  · intro h
    obtain ⟨q, hq, hqid⟩ := List.mem_map.mp h
    have hq2 := List.mem_filter.mp hq
    have hq3 : q ∈ s4.patterns ∧ q.active = true := by
      have := hq2.1
      rw [get_active_patterns_none] at this
      have := mem_sortByConfEv.mp this
      exact ⟨(List.mem_filter.mp this).1, (List.mem_filter.mp this).2⟩
    have : q = r := patIds_inj hN hq3.1 hr hqid
    subst this
    simp [weakActive, hq3.2, hq2.2]
  · intro h
    simp only [weakActive, Bool.and_eq_true] at h
    refine List.mem_map.mpr ⟨r, ?_, rfl⟩
    refine List.mem_filter.mpr ⟨?_, h.2⟩
    rw [get_active_patterns_none, mem_sortByConfEv]
    exact List.mem_filter.mpr ⟨hr, h.1⟩

theorem strat1emit_parts {x : TagStat} {e : Emission} (h : strat1emit x = some e) :
    e.ptype = "tag_performance" ∧ e.desc = tagDescOf x := by
  simp only [strat1emit] at h
  split at h
  · exact absurd h (by simp)
  · split at h
    · obtain rfl := Option.some.inj h
      exact ⟨rfl, rfl⟩
    · exact absurd h (by simp)

theorem strat2emit_ptype {x : WordStat} {e : Emission} (h : strat2emit x = some e) :
    e.ptype = "keyword_signal" := by
  simp only [strat2emit] at h
  split at h
  · exact absurd h (by simp)
  · split at h
    · obtain rfl := Option.some.inj h
      rfl
    · split at h
      · obtain rfl := Option.some.inj h
        rfl
      · exact absurd h (by simp)

theorem strat3emits_ptype (res : List Decision) :
    ∀ em ∈ strat3emits res, ∀ e : Emission, em = some e → e.ptype = "calibration" := by
  intro em hm e he
  simp only [strat3emits] at hm
  rcases List.mem_cons.mp hm with rfl | hm2
  · split at he
    · obtain rfl := Option.some.inj he
      rfl
    · exact absurd he (by simp)
  · rcases List.mem_cons.mp hm2 with rfl | hm3
    · split at he
      · obtain rfl := Option.some.inj he
        rfl
      · exact absurd he (by simp)
    · exact absurd hm3 (List.not_mem_nil em)

theorem strat4emit_ptype {x : HourStat} {e : Emission} (h : strat4emit x = some e) :
    e.ptype = "temporal" := by
  simp only [strat4emit] at h
  split at h
  · exact absurd h (by simp)
  · split at h
    · obtain rfl := Option.some.inj h
      rfl
    · exact absurd h (by simp)

theorem mineEmissions_ptype (res : List Decision) :
    ∀ em ∈ mineEmissions res, ∀ e : Emission, em = some e → e.ptype ∈ minedTypes := by
  intro em hm e he
  simp only [mineEmissions, List.mem_append] at hm
  rcases hm with ((h1 | h2) | h3) | h4
  · obtain ⟨x, _, rfl⟩ := List.mem_map.mp h1
    rw [(strat1emit_parts he).1]
    simp [minedTypes]
  · obtain ⟨x, _, rfl⟩ := List.mem_map.mp h2
    rw [strat2emit_ptype he]
    simp [minedTypes]
  · rw [strat3emits_ptype res em h3 e he]
    simp [minedTypes]
  · obtain ⟨x, _, rfl⟩ := List.mem_map.mp h4
    rw [strat4emit_ptype he]
    simp [minedTypes]

/-- C7: after a non-skipped `mine_agent` pass, the final pattern table is
the post-strategies table with every currently-active weak pattern
(evidence ≤ 1 and confidence < 0.5) deactivated: no weak pattern is left
active; every active pattern that is not weak survives untouched; and a
pre-existing pattern whose type is none of the four mined types reaches
the pruning step unchanged (so the claim's concrete instances follow). -/
theorem c7_mine_prunes (s : MemState) (now : Nat)
    (h0 : 3 ≤ resolvedCount s)
    (hN : (patIds (mineStrategies s now).1).Nodup) :
    (mine_agent s now).2.patterns =
      (mineStrategies s now).1.patterns.map (fun r =>
        if weakActive r = true then { r with active := false } else r) ∧
    (∀ p ∈ (mine_agent s now).2.patterns,
      p.evidence_count ≤ 1 → p.confidence < 0.5 → p.active = false) ∧
    (∀ r ∈ (mineStrategies s now).1.patterns, r.active = true → weakB r = false →
      r ∈ (mine_agent s now).2.patterns) ∧
    (∀ r ∈ s.patterns, r.pattern_type ∉ minedTypes →
      r ∈ (mineStrategies s now).1.patterns) := by
  have hbody : (mine_agent s now).2 = (pruneWeak (mineStrategies s now).1).2 := by
    simp only [mine_agent, if_neg (by omega : ¬resolvedCount s < 3)]
  have hmap : (mine_agent s now).2.patterns =
      (mineStrategies s now).1.patterns.map (fun r =>
        if weakActive r = true then { r with active := false } else r) := by
    rw [hbody, pruneWeak_spec]
    show (mineStrategies s now).1.patterns.map _ = _
    apply List.map_congr_left
    intro r hr
    have hcond := prune_id_cond hN hr
    by_cases h : weakActive r = true
    · rw [if_pos (hcond.mpr h), if_pos h]
    · rw [if_neg (fun hc => h (hcond.mp hc)), if_neg h]
  refine ⟨hmap, ?_, ?_, ?_⟩
  · intro p hp hev hcf
    rw [hmap] at hp
    obtain ⟨r, _, hfr⟩ := List.mem_map.mp hp
    by_cases h : weakActive r = true
    · rw [if_pos h] at hfr
      subst hfr
      rfl
    · rw [if_neg h] at hfr
      subst hfr
      by_cases ha : r.active = true
      · exfalso
        apply h
        simp [weakActive, weakB, ha, hev, hcf]
      · simpa using ha
  · intro r hr ha hw
    rw [hmap]
    have : weakActive r = false := by
      simp [weakActive, hw]
    refine List.mem_map.mpr ⟨r, hr, ?_⟩
    rw [if_neg (by simp [this])]
  · intro r hr htype
    refine foldAdds_keeps now (mineEmissions (resolvedTop s)) (s, 0) r hN hr ?_
    intro em hm e he
    left
    intro hcontra
    exact htype (hcontra ▸ mineEmissions_ptype (resolvedTop s) em hm e he)

/-- Witness for C7: on the concrete store with two pre-existing active
"trend" patterns — evidence 1 / confidence 0.3 and evidence 1 /
confidence 0.6 — a mining pass deactivates the first and keeps the second
active. -/
theorem c7_witness :
    3 ≤ resolvedCount c7State ∧
    (patIds (mineStrategies c7State 500).1).Nodup ∧
    (∀ p ∈ (mine_agent c7State 500).2.patterns,
      p.evidence_count ≤ 1 → p.confidence < 0.5 → p.active = false) ∧
    (mine_agent c7State 500).2.patterns.map (fun p => (p.id, p.active)) =
      [("pX", false), ("pY", true), ("pat_3", true)] := by
  refine ⟨by decide!, by decide!,
    (c7_mine_prunes c7State 500 (by decide!) (by decide!)).2.1, by decide!⟩

/-! ### Tag-key uniqueness for strategy 1 (used by C10) -/

theorem bumpTag_keys_nodup (sc : ℚ) (acc : List TagStat) (tg : String)
    (h : (acc.map (fun e => e.tag)).Nodup) :
    ((bumpTag sc acc tg).map (fun e => e.tag)).Nodup := by
  unfold bumpTag
  by_cases hx : (acc.any (fun e => e.tag == tg)) = true
  · rw [if_pos hx, List.map_map]
    have hcomp : ∀ e ∈ acc, ((fun e : TagStat => e.tag) ∘ (fun e : TagStat =>
        if e.tag == tg then
          { e with total := e.total + 1,
                   wins := if 0 < sc then e.wins + 1 else e.wins,
                   losses := if sc < 0 then e.losses + 1 else e.losses }
        else e)) e = e.tag := by
      intro e _
      by_cases hc : (e.tag == tg) = true
      · simp [Function.comp, hc]
      · simp [Function.comp, hc]
    rw [List.map_congr_left hcomp]
    exact h
  · rw [if_neg hx, List.map_append]
    refine List.nodup_append.mpr ⟨h, by simp, ?_⟩
    intro a ha hb
    simp only [List.map_cons, List.map_nil, List.mem_singleton] at hb
    subst hb
    obtain ⟨e, he, htg⟩ := List.mem_map.mp ha
    rw [List.any_eq_true] at hx
    exact hx ⟨e, he, by simp [htg]⟩

theorem foldTags_keys_nodup (sc : ℚ) :
    ∀ (tags : List String) (acc : List TagStat),
      (acc.map (fun e => e.tag)).Nodup →
      ((tags.foldl (bumpTag sc) acc).map (fun e => e.tag)).Nodup
  | [], _, h => h
  | tg :: tags, acc, h =>
    foldTags_keys_nodup sc tags (bumpTag sc acc tg) (bumpTag_keys_nodup sc acc tg h)

theorem tagStats_keys_nodup_aux :
    ∀ (res : List Decision) (acc : List TagStat),
      (acc.map (fun e => e.tag)).Nodup →
      ((res.foldl (fun acc d => d.tags.foldl (bumpTag d.outcome_score) acc) acc).map
        (fun e => e.tag)).Nodup
  | [], _, h => h
  | d :: res, acc, h =>
    tagStats_keys_nodup_aux res (d.tags.foldl (bumpTag d.outcome_score) acc)
      (foldTags_keys_nodup d.outcome_score d.tags acc h)

theorem tagStats_keys_nodup (res : List Decision) :
    ((tagStats res).map (fun e => e.tag)).Nodup :=
  tagStats_keys_nodup_aux res [] (by simp)

/-- Strategy 1 on a tag entry with zero wins and zero losses but enough
total occurrences: the `max(1, ...)` denominator forces win-rate 0, the
`≤ 1 − MIN_CONFIDENCE` arm fires, and the emission carries confidence
`1 − 0 = 1`. -/
theorem strat1emit_zero {et : TagStat} (hw : et.wins = 0) (hl : et.losses = 0)
    (htot : 3 ≤ et.total) :
    strat1emit et =
      some ⟨"tag_performance", tagDescOf et, (et.total : Int), 1⟩ ∧
    tagWr et = 0 := by
  have hwr : tagWr et = 0 := by
    simp [tagWr, hw]
  refine ⟨?_, hwr⟩
  simp only [strat1emit, tagDescOf]
  rw [if_neg (by omega), hwr]
  norm_num

/-- C10: if a tag has at least three occurrences among the resolved
decisions the miner reads, all with outcome score exactly 0 (zero wins,
zero losses), and its emitted description is fresh (not an existing active
`tag_performance` row, not produced for any other tag in the pass), then
after `mine_agent` the store holds an active `tag_performance` pattern
with confidence 1.0 and the "0W/0L" description — maximal confidence
backed by no win or loss at all.  The zero denominator is forced to 1, so
the computed win-rate is 0. -/
theorem c10_zero_denominator (s : MemState) (now : Nat) (t : String)
    (et : TagStat)
    (h0 : 3 ≤ resolvedCount s)
    (hN : (patIds (mineStrategies s now).1).Nodup)
    (het : et ∈ tagStats (resolvedTop s))
    (htag : et.tag = t) (hw : et.wins = 0) (hl : et.losses = 0)
    (htot : 3 ≤ et.total)
    (hdlen : (tagDescOf et).length ≤ 1000)
    (hfresh : noActiveMatch "tag_performance" (tagDescOf et) s)
    (hothers : ∀ e ∈ tagStats (resolvedTop s), e.tag ≠ t →
      truncate 1000 (tagDescOf e) ≠ tagDescOf et ∧ tagDescOf e ≠ tagDescOf et) :
    ∃ p ∈ (mine_agent s now).2.patterns,
      p.pattern_type = "tag_performance" ∧ p.description = tagDescOf et ∧
      p.evidence_count = (et.total : Int) ∧ p.confidence = 1 ∧
      p.active = true ∧ tagWr et = 0 := by
  obtain ⟨l1, l2, hsplit⟩ := List.append_of_mem het
  have hemit := (strat1emit_zero hw hl htot).1
  have hwr := (strat1emit_zero hw hl htot).2
  have hlist : mineEmissions (resolvedTop s) =
      (l1.map strat1emit) ++
        some (⟨"tag_performance", tagDescOf et, (et.total : Int), 1⟩ : Emission) ::
          (l2.map strat1emit ++
            ((wordStats (resolvedTop s)).map strat2emit ++
              (strat3emits (resolvedTop s) ++
                (hourStats (resolvedTop s)).map strat4emit))) := by
    simp only [mineEmissions, hsplit, List.map_append, List.map_cons, hemit,
      List.append_assoc, List.cons_append]
  have hkeys := tagStats_keys_nodup (resolvedTop s)
  rw [hsplit] at hkeys
  simp only [List.map_append, List.map_cons] at hkeys
  obtain ⟨hn1, hn2, hdisj⟩ := List.nodup_append.mp hkeys
  have h1tags : ∀ x ∈ l1, x.tag ≠ t := by
    intro x hx hc
    have := hdisj (List.mem_map.mpr ⟨x, hx, rfl⟩)
    rw [hc, ← htag] at this
    exact this (List.mem_cons_self _ _)
  have h2tags : ∀ x ∈ l2, x.tag ≠ t := by
    intro x hx hc
    have := (List.nodup_cons.mp hn2).1
    rw [← htag] at hc
    exact this (hc ▸ List.mem_map.mpr ⟨x, hx, rfl⟩)
  have hmem1 : ∀ x ∈ l1, x ∈ tagStats (resolvedTop s) := by
    intro x hx
    rw [hsplit]
    exact List.mem_append_left _ hx
  have hmem2 : ∀ x ∈ l2, x ∈ tagStats (resolvedTop s) := by
    intro x hx
    rw [hsplit]
    exact List.mem_append_right _ (List.mem_cons_of_mem _ hx)
  have hNlist := hN
  rw [show mineStrategies s now =
      (mineEmissions (resolvedTop s)).foldl (maybeAdd now) (s, 0) from rfl,
    hlist] at hNlist
  have h100 : truncate 100 "tag_performance" = "tag_performance" := by decide!
  have hcreate := @foldAdds_creates "tag_performance" (tagDescOf et) now
    (⟨"tag_performance", tagDescOf et, (et.total : Int), 1⟩ : Emission)
    rfl rfl h100 (truncate_of_length_le hdlen)
    (l1.map strat1emit)
    (l2.map strat1emit ++
      ((wordStats (resolvedTop s)).map strat2emit ++
        (strat3emits (resolvedTop s) ++
          (hourStats (resolvedTop s)).map strat4emit)))
    (s, 0) hNlist hfresh ?_ ?_
  · obtain ⟨pid, hpid⟩ := hcreate
    rw [← hlist] at hpid
    have hclamp : ratMax 0 (ratMin 1 (1 : ℚ)) = 1 := by
      norm_num [ratMax, ratMin]
    rw [show (Pattern.mk pid "tag_performance" (tagDescOf et) (et.total : Int)
        (ratMax 0 (ratMin 1 (1 : ℚ))) true now now []) =
      (Pattern.mk pid "tag_performance" (tagDescOf et) (et.total : Int)
        1 true now now []) from by rw [hclamp]] at hpid
    have hbody : (mine_agent s now).2 = (pruneWeak (mineStrategies s now).1).2 := by
      simp only [mine_agent, if_neg (by omega : ¬resolvedCount s < 3)]
    have hnotweak : (Pattern.mk pid "tag_performance" (tagDescOf et)
        (et.total : Int) 1 true now now []).id ∉
        (((get_active_patterns (mineStrategies s now).1 none 0).filter
          weakB).map (fun p => p.id)) := by
      intro hmemid
      have := (prune_id_cond hN hpid).mp hmemid
      simp [weakActive, weakB] at this
      norm_num at this
    refine ⟨Pattern.mk pid "tag_performance" (tagDescOf et) (et.total : Int)
      1 true now now [], ?_, rfl, rfl, rfl, rfl, rfl, hwr⟩
    rw [hbody, pruneWeak_spec]
    show _ ∈ (mineStrategies s now).1.patterns.map _
    refine List.mem_map.mpr ⟨_, hpid, ?_⟩
    rw [if_neg hnotweak]
  · intro em hm e he
    obtain ⟨x, hx, hfx⟩ := List.mem_map.mp hm
    rw [← hfx] at he
    obtain ⟨hpt, hdesc⟩ := strat1emit_parts he
    rintro ⟨_, hB⟩
    rw [hdesc] at hB
    exact (hothers x (hmem1 x hx) (h1tags x hx)).1 hB
  · intro em hm e he
    rcases List.mem_append.mp hm with hm1 | hm2
    · obtain ⟨x, hx, hfx⟩ := List.mem_map.mp hm1
      rw [← hfx] at he
      obtain ⟨hpt, hdesc⟩ := strat1emit_parts he
      right
      rw [hdesc]
      exact ((hothers x (hmem2 x hx) (h2tags x hx)).2).symm
    · rcases List.mem_append.mp hm2 with hm3 | hm4
      · obtain ⟨x, hx, hfx⟩ := List.mem_map.mp hm3
        rw [← hfx] at he
        left
        rw [strat2emit_ptype he]
        decide
      · rcases List.mem_append.mp hm4 with hm5 | hm6
        · left
          rw [strat3emits_ptype (resolvedTop s) em hm5 e he]
          decide
        · obtain ⟨x, hx, hfx⟩ := List.mem_map.mp hm6
          rw [← hfx] at he
          left
          rw [strat4emit_ptype he]
          decide

/-- Witness for C10: three resolved decisions tagged "zzz", all with score
exactly 0, produce an active `tag_performance` pattern with confidence 1
describing a 0W/0L record. -/
theorem c10_witness :
    3 ≤ resolvedCount c10State ∧
    (⟨"zzz", 0, 0, 3⟩ : TagStat) ∈ tagStats (resolvedTop c10State) ∧
    noActiveMatch "tag_performance" (tagDescOf ⟨"zzz", 0, 0, 3⟩) c10State ∧
    ∃ p ∈ (mine_agent c10State 500).2.patterns,
      p.pattern_type = "tag_performance" ∧
      p.description = tagDescOf ⟨"zzz", 0, 0, 3⟩ ∧
      p.evidence_count = (3 : Int) ∧ p.confidence = 1 ∧ p.active = true ∧
      tagWr ⟨"zzz", 0, 0, 3⟩ = 0 := by
  refine ⟨by decide!, by decide!, by decide!, ?_⟩
  exact c10_zero_denominator c10State 500 "zzz" ⟨"zzz", 0, 0, 3⟩
    (by decide!) (by decide!) (by decide!) rfl rfl rfl (by decide!) (by decide!)
    (by decide!) (by decide!)

end SharedMemory
